import Mathlib

/-!
Verification of the committee-based threshold-decryption core of jormungandr:
key-material encoding/decoding (committee.rs, decryption_tally.rs), committee
key generation (`PrivateVoteCommitteeDataManager::new`), decryption-share
generation (`TallyGenerateDecryptionShare::exec`,
`TallyGenerateVotePlanDecryptionShares::exec`) and share merging
(`MergeShares::exec`).

Shallow embedding conventions:
* byte strings are `List Nat`;
* a bech32-encoded text line is modelled by its decoded content (the
  human-readable part together with the payload bytes), since bech32 is an
  external, invertible text codec;
* the cryptographic primitives of the external `chain_vote` crate
  (`EncryptedTally`, `OpeningVoteKey`, `MemberState`, `ElectionPublicKey`,
  `CRS`) are opaque capabilities; they are modelled as concrete deterministic
  functions faithful to the shapes the sources rely on, with each modelling
  decision recorded in the corresponding doc comment;
* Rust `Result` is `Except`, Rust `Option` is `Option`; file/stdin reading and
  base64/hex transport decoding are performed before the modelled entry
  points, whose inputs are the already-decoded values.
-/

/-- Byte strings. Individual byte bounds (< 256) play no role in the claims,
so bytes are plain naturals. -/
abbrev Bytes := List Nat

/-! ## Bech32 text codec (external `bech32` crate)

`bech32::encode(hrp, data)` / `bech32::decode(text)` form an invertible pair;
an encoded text line is modelled by its decoded content. -/

/-- A bech32 text line, modelled by its human-readable part (the tag) and its
payload bytes. -/
structure Bech32Text where
  hrp : String
  payload : Bytes
deriving DecidableEq

/-- `bech32::encode`: builds the tagged text from a tag and payload bytes. -/
def bech32Encode (hrp : String) (data : Bytes) : Bech32Text :=
  { hrp := hrp, payload := data }

/-! ## Key and share types (external `chain_vote` crate) -/

/-- `chain_vote::OpeningVoteKey` (a committee member's secret share, the
decryption key). Modelled by its byte representation. -/
structure OpeningVoteKey where
  bytes : Bytes
deriving DecidableEq

/-- `OpeningVoteKey::to_bytes`. -/
def OpeningVoteKey.to_bytes (k : OpeningVoteKey) : Bytes := k.bytes

/-- Modelled from the spec: `OpeningVoteKey::from_bytes` lives in the external
`chain_vote` crate; per the spec, decoding with the matching tag
"round-trips to the original bytes exactly", so the parse is modelled as the
inverse of `to_bytes` (rejection of non-key byte strings is not modelled; no
claim depends on it). -/
def OpeningVoteKey.from_bytes (bs : Bytes) : Option OpeningVoteKey :=
  some { bytes := bs }

/-- `chain_vote::committee::ElectionPublicKey` (the encrypting vote key).
Modelled by its byte representation. `chain_vote::EncryptingVoteKey` is the
same type under an alias. -/
structure ElectionPublicKey where
  bytes : Bytes
deriving DecidableEq

/-- `ElectionPublicKey::to_bytes`. -/
def ElectionPublicKey.to_bytes (k : ElectionPublicKey) : Bytes := k.bytes

/-- Modelled from the spec: `ElectionPublicKey::from_bytes` lives in the
external `chain_vote` crate; per the spec the matching-tag decode
"round-trips to the original bytes exactly", so the parse is the inverse of
`to_bytes` (rejection of non-key byte strings is not modelled; no claim
depends on it). -/
def ElectionPublicKey.from_bytes (bs : Bytes) : Option ElectionPublicKey :=
  some { bytes := bs }

/-! ## Tag constants

`committee.rs` lines 17-19; the jcli `bech32_constants` module (not under
src/) uses the same strings, as witnessed by `read_decryption_key` accepting
the keys written by `write_member_secret_key`. -/

def COMMUNICATION_SK_HRP : String := "p256k1_vcommsk"

def MEMBER_SK_HRP : String := "p256k1_membersk"

def ENCRYPTING_VOTE_PK_HRP : String := "p256k1_votepk"

/-! ## jcli error type (`jcli_app::vote::Error`, the variants used by
`decryption_tally.rs`) -/

inductive JcliError where
  | InvalidSecretKey
  | DecryptionKeyRead
  | EncryptedTallyRead
deriving DecidableEq

/-! ## Wallet error type (`WalletError`, the variants used by
`committee.rs`) -/

inductive WalletError where
  | InvalidBech32
  | InvalidBech32Key (expected : String) (actual : String)
  | VoteEncryptingKey
deriving DecidableEq

/-- `read_decryption_key` (decryption_tally.rs lines 61-74): reads one text
line, bech32-decodes it, rejects a tag other than `MEMBER_SK_HRP` with
`Error::InvalidSecretKey`, then parses the payload as an `OpeningVoteKey`
(parse failure is `Error::DecryptionKeyRead`). The text line arrives already
bech32-decoded per the embedding conventions. -/
def read_decryption_key (data : Bech32Text) : Except JcliError OpeningVoteKey :=
  if data.hrp ≠ MEMBER_SK_HRP then
    .error .InvalidSecretKey
  else
    match OpeningVoteKey.from_bytes data.payload with
    | some k => .ok k
    | none => .error .DecryptionKeyRead

/-- `ElectionPublicKeyExtension::to_base32` (committee.rs lines 112-116):
bech32-encodes the key bytes under `ENCRYPTING_VOTE_PK_HRP`. -/
def ElectionPublicKey.to_base32 (k : ElectionPublicKey) : Bech32Text :=
  bech32Encode ENCRYPTING_VOTE_PK_HRP k.to_bytes

/-- `encrypting_key_from_base32` (committee.rs lines 118-128): bech32-decodes
the text, rejects a tag other than `ENCRYPTING_VOTE_PK_HRP` with
`InvalidBech32Key`, then parses the payload bytes. -/
def encrypting_key_from_base32 (key : Bech32Text) : Except WalletError ElectionPublicKey :=
  if key.hrp ≠ ENCRYPTING_VOTE_PK_HRP then
    .error (.InvalidBech32Key ENCRYPTING_VOTE_PK_HRP key.hrp)
  else
    match ElectionPublicKey.from_bytes key.payload with
    | some k => .ok k
    | none => .error .VoteEncryptingKey

/-! ## Generic tagged decode (spec §4.1 KeyMaterialCodec) -/

/-- Outcome of the generic tagged decode of spec §4.1. -/
inductive CodecError where
  | TagMismatch (expected : String) (actual : String)
deriving DecidableEq

/-- Modelled from the spec: the generic `decode(text) -> (tag, raw_bytes)`
with an expected tag (spec §4.1 KeyMaterialCodec). The concrete decoder
expecting the communication-key tag is not under src/ (src/ only has the
member-secret-key and encrypting-key decoders); per the spec, decode "fails
with `TagMismatch` if the decoded tag does not match an expected tag supplied
by the caller". -/
def decodeExpecting (expected : String) (text : Bech32Text) : Except CodecError Bytes :=
  if text.hrp ≠ expected then
    .error (.TagMismatch expected text.hrp)
  else
    .ok text.payload

/-- C8: decoding a tagged key text while expecting a different tag fails and
yields no key: a member-secret-key-tagged text is rejected where a
communication key is expected; `read_decryption_key` rejects every tag other
than the member-secret tag; `encrypting_key_from_base32` rejects every tag
other than the encrypting-vote-key tag. -/
theorem decode_rejects_wrong_tag (payload : Bytes) (t : Bech32Text)
    (hdk : t.hrp ≠ MEMBER_SK_HRP) (u : Bech32Text)
    (hek : u.hrp ≠ ENCRYPTING_VOTE_PK_HRP) :
    decodeExpecting COMMUNICATION_SK_HRP (bech32Encode MEMBER_SK_HRP payload)
      = .error (.TagMismatch COMMUNICATION_SK_HRP MEMBER_SK_HRP)
    ∧ read_decryption_key t = .error .InvalidSecretKey
    ∧ encrypting_key_from_base32 u
      = .error (.InvalidBech32Key ENCRYPTING_VOTE_PK_HRP u.hrp) := by
  refine ⟨?_, ?_, ?_⟩
  · simp [decodeExpecting, bech32Encode, COMMUNICATION_SK_HRP, MEMBER_SK_HRP]
  · simp [read_decryption_key, hdk]
  · simp [encrypting_key_from_base32, hek]

/-- Witness for C8 at concrete inputs: a member-secret-tagged text rejected
by the communication-key decode, and concrete wrong-tag inputs for the two
source decoders. -/
theorem decode_rejects_wrong_tag_witness :
    decodeExpecting COMMUNICATION_SK_HRP (bech32Encode MEMBER_SK_HRP [1, 2])
      = .error (.TagMismatch COMMUNICATION_SK_HRP MEMBER_SK_HRP)
    ∧ read_decryption_key { hrp := "p256k1_votepk", payload := [1, 2] }
      = .error .InvalidSecretKey
    ∧ encrypting_key_from_base32 { hrp := "p256k1_membersk", payload := [1, 2] }
      = .error (.InvalidBech32Key ENCRYPTING_VOTE_PK_HRP "p256k1_membersk") :=
  decode_rejects_wrong_tag [1, 2]
    { hrp := "p256k1_votepk", payload := [1, 2] } (by decide)
    { hrp := "p256k1_membersk", payload := [1, 2] } (by decide)

/-- C9: encode-then-decode with the matching tag is a round trip: an
encrypting public key sent through `to_base32` and `encrypting_key_from_base32`
comes back byte-identical, and a member secret key encoded under its tag (as
`write_member_secret_key` does) and read back by `read_decryption_key` comes
back byte-identical. -/
theorem encode_decode_round_trip (k : ElectionPublicKey) (sk : OpeningVoteKey) :
    encrypting_key_from_base32 k.to_base32 = .ok k
    ∧ read_decryption_key (bech32Encode MEMBER_SK_HRP sk.to_bytes) = .ok sk := by
  constructor
  · simp [encrypting_key_from_base32, ElectionPublicKey.to_base32, bech32Encode,
      ElectionPublicKey.from_bytes, ElectionPublicKey.to_bytes]
  · simp [read_decryption_key, bech32Encode, OpeningVoteKey.from_bytes,
      OpeningVoteKey.to_bytes, MEMBER_SK_HRP]

/-! ## Encrypted tallies and decryption shares (external `chain_vote` crate) -/

/-- Byte size of one ciphertext in the scheme; `EncryptedTally::from_bytes`
accepts only byte strings cut into whole ciphertexts. The exact value is
irrelevant to the claims; what matters is that some byte strings fail to
parse. -/
def CIPHERTEXT_BYTES : Nat := 130

/-- `chain_vote::EncryptedTally`, the homomorphically-aggregated ciphertext of
one proposal's votes. Modelled by its byte representation. -/
structure EncryptedTally where
  bytes : Bytes
deriving DecidableEq

/-- Modelled from the spec: `EncryptedTally::from_bytes` lives in the external
`chain_vote` crate; per the spec it fails on input that "cannot be parsed as a
valid ciphertext for the scheme" (truncated/corrupted blobs), modelled as a
byte string whose length is not a whole number of ciphertexts. -/
def EncryptedTally.from_bytes (bs : Bytes) : Option EncryptedTally :=
  if bs.length % CIPHERTEXT_BYTES = 0 then some { bytes := bs } else none

/-- A member's partial decryption share (`chain_vote::TallyDecryptShare`).
Modelled by its byte representation. -/
structure TallyDecryptShare where
  bytes : Bytes
deriving DecidableEq

/-- `TallyDecryptShare::to_bytes`. -/
def TallyDecryptShare.to_bytes (s : TallyDecryptShare) : Bytes := s.bytes

/-- The member's internal decrypted state returned next to the share by
`EncryptedTally::finish`. -/
structure TallyState where
  tally_bytes : Bytes
  key_bytes : Bytes
deriving DecidableEq

/-- Modelled from the spec: `EncryptedTally::finish` lives in the external
`chain_vote` crate; per the spec the computation "is a pure function of its
inputs (no randomness)" producing the internal state and the member's partial
decryption share, which "must be computed from the matching member's secret
share". Modelled as a deterministic combination of the tally bytes and the
key bytes; its Rust signature takes no RNG, matching the purity assumption. -/
def EncryptedTally.finish (t : EncryptedTally) (key : OpeningVoteKey) :
    TallyState × TallyDecryptShare :=
  ({ tally_bytes := t.bytes, key_bytes := key.bytes },
   { bytes := t.bytes ++ 0 :: key.bytes })

/-! ## `TallyGenerateDecryptionShare::exec` (decryption_tally.rs lines 76-88)

The command reads the tally text and base64-decodes it (transport decoding,
performed before the modelled entry point), parses it with
`EncryptedTally::from_bytes` (failure is `Error::EncryptedTallyRead`), reads
the decryption key, computes `encrypted_tally.finish(&decryption_key)` and
prints the base64 encoding of the share bytes. The model returns the share
bytes that get printed. -/

structure TallyGenerateDecryptionShare where
  encrypted_tally : Bytes
  decryption_key : Bech32Text

def TallyGenerateDecryptionShare.exec (cmd : TallyGenerateDecryptionShare) :
    Except JcliError Bytes := do
  let encrypted_tally ←
    match EncryptedTally.from_bytes cmd.encrypted_tally with
    | some t => Except.ok t
    | none => Except.error .EncryptedTallyRead
  let decryption_key ← read_decryption_key cmd.decryption_key
  let share := (encrypted_tally.finish decryption_key).2
  return share.to_bytes

/-- C5: `share_for_tally` is deterministic: on a parseable encrypted tally
and a valid member secret share, any two successful runs of
`TallyGenerateDecryptionShare::exec` on the same inputs produce byte-identical
decryption shares (the entry point takes no RNG, so the computation consumes
no randomness). -/
theorem share_for_tally_deterministic (tally : Bytes) (key : Bech32Text)
    (s s' : Bytes)
    (h : TallyGenerateDecryptionShare.exec { encrypted_tally := tally, decryption_key := key } = .ok s)
    (h' : TallyGenerateDecryptionShare.exec { encrypted_tally := tally, decryption_key := key } = .ok s') :
    s = s' := by
  rw [h] at h'
  exact Except.ok.inj h'

set_option maxRecDepth 4000 in
/-- Witness for C5: a concrete parseable tally (one whole ciphertext of
zeroes) and a valid member-secret-key text; the run succeeds and the theorem
applies. -/
theorem share_for_tally_deterministic_witness :
    TallyGenerateDecryptionShare.exec
      { encrypted_tally := List.replicate 130 0,
        decryption_key := { hrp := "p256k1_membersk", payload := [7] } }
      = .ok (List.replicate 130 0 ++ 0 :: [7])
    ∧ List.replicate 130 0 ++ 0 :: [7] = List.replicate 130 0 ++ 0 :: [7] :=
  ⟨rfl,
   share_for_tally_deterministic (List.replicate 130 0)
     { hrp := "p256k1_membersk", payload := [7] } _ _ rfl rfl⟩

/-! ## Vote plans and proposal tallies

Modelled from the spec: the `Tally`/`PrivateTallyState` interface types live
in jormungandr-lib, which is not under src/; the spec describes a proposal as
carrying an optional tally that is either public, private-encrypted or
private-decrypted, and the match in `TallyGenerateVotePlanDecryptionShares::exec`
(decryption_tally.rs lines 99-111) pins exactly these constructors. Payload
fields not inspected by the sources are reduced to placeholders. -/

inductive PrivateTallyState where
  | Encrypted (encrypted_tally : Bytes) (total_stake : Nat)
  | Decrypted (result : List Nat) (total_stake : Nat)
deriving DecidableEq

inductive Tally where
  | Public (result : List Nat)
  | Private (state : PrivateTallyState)
deriving DecidableEq

/-- A proposal of a vote plan; only its (optional) tally is inspected by the
share-generation code. -/
structure Proposal where
  tally : Option Tally
deriving DecidableEq

/-! ## `TallyGenerateVotePlanDecryptionShares::exec`
(decryption_tally.rs lines 90-119)

The command resolves the vote plan (`get_vote_plan_by_id`, external I/O,
performed before the modelled entry point), reads the decryption key, then
`filter_map`s the proposals: a proposal whose tally is `Some(Tally::Private {
state: PrivateTallyState::Encrypted { encrypted_tally, .. } })` is parsed with
`EncryptedTally::from_bytes` — the `?` operator inside the `filter_map`
closure turns a parse failure into `None`, i.e. a skip — and on success
contributes `encrypted_tally.finish(&decryption_key).1` (the share); every
other proposal yields `None`. The resulting share list is printed as the
member's bundle. -/

structure TallyGenerateVotePlanDecryptionShares where
  vote_plan : List Proposal
  key : Bech32Text

def TallyGenerateVotePlanDecryptionShares.exec
    (cmd : TallyGenerateVotePlanDecryptionShares) :
    Except JcliError (List TallyDecryptShare) :=
  match read_decryption_key cmd.key with
  | .error e => .error e
  | .ok decryption_key =>
    .ok (cmd.vote_plan.filterMap fun prop =>
      match prop.tally with
      | some (Tally.Private (PrivateTallyState.Encrypted encrypted_tally _)) =>
        (EncryptedTally.from_bytes encrypted_tally).map
          (fun t => (t.finish decryption_key).2)
      | _ => none)

/-- C1 (observed behavior at the failing input): given a valid decryption key
and a vote plan whose single proposal carries a private encrypted tally of
unparseable bytes (length 1, not a whole ciphertext), the batch run returns
`ok` with an EMPTY bundle — the `?` inside the `filter_map` closure silently
skips the malformed proposal instead of aborting the bundle with
`MalformedEncryptedTally`. -/
theorem shares_for_vote_plan_skips_malformed_tally :
    TallyGenerateVotePlanDecryptionShares.exec
      { vote_plan := [{ tally := some (Tally.Private (PrivateTallyState.Encrypted [0] 100)) }],
        key := { hrp := "p256k1_membersk", payload := [7] } }
      = .ok [] := rfl

/-- The proposals designated by the claims: tally present, private, and in
encrypted state; yields the encrypted tally bytes. -/
def proposalEncryptedTally (p : Proposal) : Option Bytes :=
  match p.tally with
  | some (Tally.Private (PrivateTallyState.Encrypted bs _)) => some bs
  | _ => none

/-- Whether a proposal's private encrypted tally (when it has one) parses as
a valid ciphertext. -/
def proposalParses (p : Proposal) : Bool :=
  match proposalEncryptedTally p with
  | some bs => (EncryptedTally.from_bytes bs).isSome
  | none => true

/-- The share a given key produces for given (parseable) encrypted tally
bytes. -/
def shareOf (k : OpeningVoteKey) (bs : Bytes) : TallyDecryptShare :=
  (((EncryptedTally.from_bytes bs).getD { bytes := [] }).finish k).2

/-- The `filter_map` arm of `TallyGenerateVotePlanDecryptionShares::exec`,
rewritten through the claim-side characterization: on a proposal whose
encrypted tally parses, it contributes exactly the share of its encrypted
tally bytes; on every other proposal it contributes nothing. -/
theorem filterMapArm_eq_encryptedTally_share (k : OpeningVoteKey) (p : Proposal)
    (hp : proposalParses p = true) :
    (match p.tally with
      | some (Tally.Private (PrivateTallyState.Encrypted encrypted_tally _)) =>
        (EncryptedTally.from_bytes encrypted_tally).map (fun t => (t.finish k).2)
      | _ => none)
      = (proposalEncryptedTally p).map (shareOf k) := by
  match htal : p.tally with
  | none => simp [proposalEncryptedTally, htal]
  | some (Tally.Public r) => simp [proposalEncryptedTally, htal]
  | some (Tally.Private (PrivateTallyState.Decrypted r ts)) =>
    simp [proposalEncryptedTally, htal]
  | some (Tally.Private (PrivateTallyState.Encrypted bs ts)) =>
    have hbs : proposalEncryptedTally p = some bs := by
      simp [proposalEncryptedTally, htal]
    have hp' : (EncryptedTally.from_bytes bs).isSome = true := by
      unfold proposalParses at hp
      rw [hbs] at hp
      exact hp
    obtain ⟨t, ht⟩ := Option.isSome_iff_exists.mp hp'
    simp [htal, hbs, ht, shareOf]

/-- C6: with a valid key, and when every private-encrypted tally of the plan
parses (the malformed case is settled separately under C1),
`shares_for_vote_plan` succeeds and the bundle is exactly the in-order
image of the proposals whose tally is present, private and encrypted — one
share each, every other proposal skipped without error; in particular a plan
with no qualifying proposal yields the empty bundle. -/
theorem shares_for_vote_plan_order (proposals : List Proposal)
    (key : Bech32Text) (k : OpeningVoteKey)
    (hk : read_decryption_key key = .ok k)
    (hparse : ∀ p ∈ proposals, proposalParses p = true) :
    TallyGenerateVotePlanDecryptionShares.exec { vote_plan := proposals, key := key }
      = .ok (proposals.filterMap fun p => (proposalEncryptedTally p).map (shareOf k)) := by
  unfold TallyGenerateVotePlanDecryptionShares.exec
  rw [hk]
  refine congrArg Except.ok ?_
  induction proposals with
  | nil => rfl
  | cons p rest ih =>
    have hp : proposalParses p = true := hparse p (List.mem_cons_self p rest)
    have hrest : ∀ q ∈ rest, proposalParses q = true :=
      fun q hq => hparse q (List.mem_cons_of_mem p hq)
    have hhead := filterMapArm_eq_encryptedTally_share k p hp
    simp only [List.filterMap_cons, ih hrest, hhead]

set_option maxRecDepth 10000 in
/-- Witness for C6: a three-proposal plan — encrypted, public, encrypted —
with a valid key: the bundle holds exactly the two shares of the encrypted
proposals, in their input order. -/
theorem shares_for_vote_plan_order_witness :
    TallyGenerateVotePlanDecryptionShares.exec
      { vote_plan :=
          [{ tally := some (Tally.Private (PrivateTallyState.Encrypted (List.replicate 130 1) 10)) },
           { tally := some (Tally.Public [3, 4]) },
           { tally := some (Tally.Private (PrivateTallyState.Encrypted (List.replicate 260 2) 20)) }],
        key := { hrp := "p256k1_membersk", payload := [7] } }
      = .ok
        ([{ tally := some (Tally.Private (PrivateTallyState.Encrypted (List.replicate 130 1) 10)) },
          { tally := some (Tally.Public [3, 4]) },
          { tally := some (Tally.Private (PrivateTallyState.Encrypted (List.replicate 260 2) 20)) }].filterMap
          fun p => (proposalEncryptedTally p).map (shareOf { bytes := [7] })) :=
  shares_for_vote_plan_order _ _ { bytes := [7] } rfl (by decide)

/-! ## `MergeShares::exec` (decryption_tally.rs lines 121-132)

The command deserializes each input document into a `MemberVotePlanShares`
(failure anywhere aborts the whole merge) and combines them through
`VotePlanDecryptShares::try_from`. -/

/-- Proposal identities in share documents. -/
abbrev ProposalId := Nat

/-- Association-list lookup, modelling access into the proposal-identity
mappings of the share documents. -/
def assocGet {β : Type} : List (Nat × β) → Nat → Option β
  | [], _ => none
  | (key, v) :: rest, i => if key = i then some v else assocGet rest i

/-- One member's share bundle: a mapping from proposal identity to that
member's shares for the proposal. -/
abbrev MemberVotePlanShares := List (ProposalId × List TallyDecryptShare)

/-- Modelled from the spec: the merge algorithm
(`VotePlanDecryptShares::try_from` over a vector of `MemberVotePlanShares`,
in `jcli_app::utils::vote`) is not under src/; per the spec §4.4, "for each
proposal identity appearing in any bundle, the merged sequence is built by
concatenating, in the order bundles were supplied, the share at that
proposal's position from each bundle that contains it", and differing
proposal sets across bundles are not an error. -/
def mergeShares (bundles : List MemberVotePlanShares) :
    List (ProposalId × List TallyDecryptShare) :=
  let pids := ((bundles.map fun b => b.map Prod.fst).flatten).dedup
  pids.map fun pid =>
    (pid, (bundles.map fun b => (assocGet b pid).getD []).flatten)

/-- Association lookup over the graph of a function on a key list hits the
function value at every key of the list. -/
theorem assocGet_map_graph {β : Type} (l : List Nat) (f : Nat → β) (i : Nat)
    (h : i ∈ l) : assocGet (l.map fun x => (x, f x)) i = some (f i) := by
  induction l with
  | nil => cases h
  | cons x rest ih =>
    by_cases hx : x = i
    · subst hx
      simp [assocGet]
    · have : i ∈ rest := by
        cases List.mem_cons.mp h with
        | inl heq => exact absurd heq.symm hx
        | inr hm => exact hm
      simp [assocGet, hx, ih this]

/-- C7: for every sequence of bundles and every proposal identity appearing
in at least one bundle, the merged document maps that identity to the
concatenation — in the order the bundles were supplied — of the identity's
shares from each bundle that contains it (a bundle without the identity
contributes nothing, and differing proposal sets across bundles are not an
error). -/
theorem merge_pools_by_proposal (bundles : List MemberVotePlanShares)
    (pid : ProposalId)
    (h : pid ∈ ((bundles.map fun b => b.map Prod.fst).flatten)) :
    assocGet (mergeShares bundles) pid
      = some ((bundles.map fun b => (assocGet b pid).getD []).flatten) := by
  unfold mergeShares
  exact assocGet_map_graph _ _ pid (List.mem_dedup.mpr h)

/-- Witness for C7 at the spec's example: merging bundle A = \x7bP1: [s1]\x7d
with bundle B = \x7bP1: [s2], P2: [s3]\x7d yields \x7bP1: [s1, s2],
P2: [s3]\x7d. -/
theorem merge_pools_by_proposal_witness :
    assocGet (mergeShares [[(1, [{ bytes := [11] }])],
        [(1, [{ bytes := [12] }]), (2, [{ bytes := [13] }])]]) 1
      = some [{ bytes := [11] }, { bytes := [12] }]
    ∧ assocGet (mergeShares [[(1, [{ bytes := [11] }])],
        [(1, [{ bytes := [12] }]), (2, [{ bytes := [13] }])]]) 2
      = some [{ bytes := [13] }] :=
  ⟨(merge_pools_by_proposal
      [[(1, [{ bytes := [11] }])], [(1, [{ bytes := [12] }]), (2, [{ bytes := [13] }])]]
      1 (by decide)).trans (by rfl),
   (merge_pools_by_proposal
      [[(1, [{ bytes := [11] }])], [(1, [{ bytes := [12] }]), (2, [{ bytes := [13] }])]]
      2 (by decide)).trans (by rfl)⟩

/-! ## Committee key generation
(`PrivateVoteCommitteeDataManager::new`, committee.rs lines 152-194)

The RNG is modelled as a stream of naturals together with a position; each
primitive that takes the RNG consumes draws and returns the advanced RNG,
mirroring `&mut rng` threading. -/

structure Rng where
  stream : Nat → Nat
  pos : Nat

/-- Draw one value and advance. -/
def Rng.next (r : Rng) : Nat × Rng :=
  (r.stream r.pos, { stream := r.stream, pos := r.pos + 1 })

/-- The common reference string (`chain_vote::CRS`). -/
structure CRS where
  seed : Nat
deriving DecidableEq

/-- Modelled from the spec: `CRS::random` lives in the external `chain_vote`
crate; per the spec the algorithm first draws "one shared public reference
parameter (a common reference string) from the RNG". -/
def CRS.random (r : Rng) : CRS × Rng :=
  let (d, r') := r.next
  ({ seed := d }, r')

/-- `chain_vote::MemberCommunicationKey` (secret half). Modelled by its byte
representation. -/
structure MemberCommunicationKey where
  bytes : Bytes
deriving DecidableEq

/-- Modelled from the spec: `MemberCommunicationKey::new` lives in the
external `chain_vote` crate; per the spec each member's communication key
pair is drawn from the RNG. -/
def MemberCommunicationKey.new (r : Rng) : MemberCommunicationKey × Rng :=
  let (d, r') := r.next
  ({ bytes := [d] }, r')

/-- `chain_vote::MemberCommunicationPublicKey`. Modelled by its byte
representation. -/
structure MemberCommunicationPublicKey where
  bytes : Bytes
deriving DecidableEq

/-- Modelled from the spec: `MemberCommunicationKey::to_public` lives in the
external `chain_vote` crate; the public half is derived deterministically
from the secret half (the derivation itself is opaque; only determinism
matters to the claims). -/
def MemberCommunicationKey.to_public (k : MemberCommunicationKey) :
    MemberCommunicationPublicKey :=
  { bytes := k.bytes.map fun b => b + 1 }

/-- `chain_vote::MemberPublicKey`. Modelled by its byte representation. -/
structure MemberPublicKey where
  bytes : Bytes
deriving DecidableEq

/-- `MemberPublicKey::to_bytes`. -/
def MemberPublicKey.to_bytes (k : MemberPublicKey) : Bytes := k.bytes

/-- `chain_vote::MemberState`: a member's secret share and derived public
key, as produced by the threshold secret-sharing step. -/
structure MemberState where
  secret_key : OpeningVoteKey
  public_key : MemberPublicKey

/-- `MemberState::secret_key` accessor. -/
def MemberState.secretKey (ms : MemberState) : OpeningVoteKey := ms.secret_key

/-- Modelled from the spec: `MemberState::new` lives in the external
`chain_vote` crate; per the spec the secret-sharing step is "seeded by the
RNG, the reference parameter, the full set of communication public keys, the
chosen threshold, and the member's own index", and "different identities
receive independent key material even when drawn in the same batch" — so the
member's index is part of the derived material, and one fresh draw is
consumed per member. The secret and public halves carry distinct leading
tags. -/
def MemberState.new (r : Rng) (threshold : Nat) (crs : CRS)
    (commPks : List MemberCommunicationPublicKey) (index : Nat) :
    MemberState × Rng :=
  let (d, r') := r.next
  let seedBytes : Bytes :=
    d :: index :: threshold :: crs.seed ::
      (commPks.map MemberCommunicationPublicKey.bytes).flatten
  ({ secret_key := { bytes := 0 :: seedBytes },
     public_key := { bytes := 1 :: seedBytes } }, r')

/-- Modelled from the spec: `ElectionPublicKey::from_participants` lives in
the external `chain_vote` crate; per the spec the encrypting public key "is a
deterministic function of the public key(s) of the participant set used to
construct it" (the crate combines the participants' group elements; only
determinism in the participant list matters to the claims). -/
def ElectionPublicKey.from_participants (pks : List MemberPublicKey) :
    ElectionPublicKey :=
  { bytes := (pks.map MemberPublicKey.to_bytes).flatten }

/-- Wallet aliases of the committee roster. -/
abbrev WalletAlias := String

/-- `jormungandr_lib::crypto::account::Identifier`, the committee member's
public identity; opaque to the key generation, modelled as a natural. -/
abbrev Identifier := Nat

/-- `PrivateVoteCommitteeData` (committee.rs lines 21-28): one member's key
material. -/
structure PrivateVoteCommitteeData where
  «alias» : WalletAlias
  communication_key : MemberCommunicationKey
  member_secret_key : OpeningVoteKey
  member_public_key : MemberPublicKey
  election_public_key : ElectionPublicKey
deriving DecidableEq

/-- The `std::iter::from_fn(|| Some(MemberCommunicationKey::new(&mut rng)))
.take(committees.len())` draw of committee.rs lines 164-167: one
communication secret key per member, drawn sequentially. -/
def drawCommunicationKeys : Nat → Rng → List MemberCommunicationKey × Rng
  | 0, r => ([], r)
  | n + 1, r =>
    let (k, r') := MemberCommunicationKey.new r
    let (ks, r'') := drawCommunicationKeys n r'
    (k :: ks, r'')

/-- `HashMap::insert`: replaces the value when the key is present, otherwise
adds the binding. The map's contents are modelled as an association list;
no claim depends on the hash map's (unspecified) iteration order. -/
def hashMapInsert :
    List (Identifier × PrivateVoteCommitteeData) → Identifier →
    PrivateVoteCommitteeData → List (Identifier × PrivateVoteCommitteeData)
  | [], key, v => [(key, v)]
  | (k', v') :: rest, key, v =>
    if k' = key then (key, v) :: rest else (k', v') :: hashMapInsert rest key v

/-- The `for (index, (alias, pk)) in committees.iter().enumerate()` loop of
committee.rs lines 174-191: per member, run `MemberState::new` at the
member's index, pick that index's communication secret key
(`communication_secret_keys.get(index).unwrap()`, modelled by `getD` — the
index is always in range since exactly `committees.len()` keys were drawn),
build the encrypting vote key from the single-element participant set
`&[ms.public_key().clone()]`, and insert the member's data under its
identifier. -/
def keygenLoop (threshold : Nat) (crs : CRS)
    (commSks : List MemberCommunicationKey)
    (commPks : List MemberCommunicationPublicKey) :
    Nat → Rng → List (WalletAlias × Identifier) →
    List (Identifier × PrivateVoteCommitteeData) →
    List (Identifier × PrivateVoteCommitteeData)
  | _, _, [], data => data
  | index, r, («alias», pk) :: rest, data =>
    let (ms, r') := MemberState.new r threshold crs commPks index
    let communication_secret_key := commSks.getD index { bytes := [] }
    let encrypting_vote_key :=
      ElectionPublicKey.from_participants [ms.public_key]
    keygenLoop threshold crs commSks commPks (index + 1) r' rest
      (hashMapInsert data pk
        { «alias» := «alias»,
          communication_key := communication_secret_key,
          member_secret_key := ms.secret_key,
          member_public_key := ms.public_key,
          election_public_key := encrypting_vote_key })

/-- `PrivateVoteCommitteeDataManager` (committee.rs lines 147-150). -/
structure PrivateVoteCommitteeDataManager where
  data : List (Identifier × PrivateVoteCommitteeData)

/-- `PrivateVoteCommitteeDataManager::new` (committee.rs lines 152-194):
draw the CRS, draw one communication key pair per member, then run the
indexed member loop starting from an empty map. The threshold is passed
straight through to the secret-sharing step — the function performs no
validation and its return type has no failure channel. -/
def PrivateVoteCommitteeDataManager.new (r : Rng)
    (committees : List (WalletAlias × Identifier)) (threshold : Nat) :
    PrivateVoteCommitteeDataManager :=
  let (crs, r₁) := CRS.random r
  let (communication_secret_keys, r₂) :=
    drawCommunicationKeys committees.length r₁
  let communication_public_keys :=
    communication_secret_keys.map MemberCommunicationKey.to_public
  { data :=
      keygenLoop threshold crs communication_secret_keys
        communication_public_keys 0 r₂ committees [] }

/-- `PrivateVoteCommitteeDataManager::get` (committee.rs lines 196-198). -/
def PrivateVoteCommitteeDataManager.get
    (m : PrivateVoteCommitteeDataManager) (i : Identifier) :
    Option PrivateVoteCommitteeData :=
  assocGet m.data i

/-- Closed form of the member loop: the entries it appends, in roster order,
when every inserted identifier is fresh (which unique roster identities
guarantee). -/
def keygenEntries (threshold : Nat) (crs : CRS)
    (commSks : List MemberCommunicationKey)
    (commPks : List MemberCommunicationPublicKey) :
    Nat → Rng → List (WalletAlias × Identifier) →
    List (Identifier × PrivateVoteCommitteeData)
  | _, _, [] => []
  | index, r, («alias», pk) :: rest =>
    let (ms, r') := MemberState.new r threshold crs commPks index
    (pk,
      { «alias» := «alias»,
        communication_key := commSks.getD index { bytes := [] },
        member_secret_key := ms.secret_key,
        member_public_key := ms.public_key,
        election_public_key :=
          ElectionPublicKey.from_participants [ms.public_key] })
      :: keygenEntries threshold crs commSks commPks (index + 1) r' rest

/-! ## Debug rendering of committee data
(`impl fmt::Debug for PrivateVoteCommitteeData`, committee.rs lines 130-145) -/

/-- One item written to the formatter: a literal string or a byte dump
(`{:?}` of a byte array). -/
inductive FmtItem where
  | text (s : String)
  | dump (bs : Bytes)
deriving DecidableEq

/-- The `Debug` rendering: the implementation writes the type name, the
member's communication PUBLIC key bytes
(`self.communication_key.to_public().to_bytes()`), the member public key
bytes, and a closing parenthesis; the formatter output is modelled as the
list of written items. -/
def PrivateVoteCommitteeData.debugFmt (d : PrivateVoteCommitteeData) :
    List FmtItem :=
  [.text "PrivateVoteCommitteeData",
   .text "communication key: ",
   .dump d.communication_key.to_public.bytes,
   .text "member public key: ",
   .dump d.member_public_key.bytes,
   .text ")"]

/-- A concrete RNG used by the concrete-input theorems: the stream of
naturals in order. -/
def testRng : Rng :=
  { stream := fun n => n, pos := 0 }

/-- Probe into a secret share's byte representation: the member-index
component the secret-sharing step bakes into the share (position 2 of the
bytes produced by `MemberState.new`). -/
def secretProbe (d : PrivateVoteCommitteeData) : Option Nat :=
  match d.member_secret_key.bytes with
  | _ :: _ :: i :: _ => some i
  | _ => none

/-- `hashMapInsert` with a fresh key appends the binding. -/
theorem hashMapInsert_append (m : List (Identifier × PrivateVoteCommitteeData))
    (key : Identifier) (v : PrivateVoteCommitteeData)
    (h : key ∉ m.map Prod.fst) : hashMapInsert m key v = m ++ [(key, v)] := by
  induction m with
  | nil => rfl
  | cons e rest ih =>
    obtain ⟨k', v'⟩ := e
    have hk : k' ≠ key := by
      intro hk
      exact h (by simp [hk])
    have hrest : key ∉ rest.map Prod.fst := by
      intro hmem
      exact h (by simp [hmem])
    simp [hashMapInsert, hk, ih hrest]

/-- Entries of `hashMapInsert` come from the old map or are the new
binding. -/
theorem hashMapInsert_mem (m : List (Identifier × PrivateVoteCommitteeData))
    (key : Identifier) (v : PrivateVoteCommitteeData)
    (e : Identifier × PrivateVoteCommitteeData)
    (h : e ∈ hashMapInsert m key v) : e ∈ m ∨ e = (key, v) := by
  induction m with
  | nil => simp [hashMapInsert] at h; simp [h]
  | cons e' rest ih =>
    obtain ⟨k', v'⟩ := e'
    by_cases hk : k' = key
    · simp [hashMapInsert, hk] at h
      cases h with
      | inl h => exact Or.inr (by simp [h])
      | inr h => exact Or.inl (by simp [h])
    · simp [hashMapInsert, hk] at h
      cases h with
      | inl h => exact Or.inl (by simp [h])
      | inr h =>
        cases ih h with
        | inl h' => exact Or.inl (by simp [h'])
        | inr h' => exact Or.inr h'

/-- A successful association lookup exhibits a member of the list. -/
theorem assocGet_mem {β : Type} (m : List (Nat × β)) (i : Nat) (v : β)
    (h : assocGet m i = some v) : (i, v) ∈ m := by
  induction m with
  | nil => simp [assocGet] at h
  | cons e rest ih =>
    obtain ⟨k', v'⟩ := e
    by_cases hk : k' = i
    · subst hk
      simp [assocGet] at h
      simp [h]
    · simp [assocGet, hk] at h
      exact List.mem_cons_of_mem _ (ih h)

/-- Association lookup succeeds on every key of the list. -/
theorem assocGet_isSome_of_mem_keys {β : Type} (m : List (Nat × β)) (i : Nat)
    (h : i ∈ m.map Prod.fst) : (assocGet m i).isSome = true := by
  induction m with
  | nil => simp at h
  | cons e rest ih =>
    obtain ⟨k', v'⟩ := e
    by_cases hk : k' = i
    · simp [assocGet, hk]
    · rw [List.map_cons] at h
      cases List.mem_cons.mp h with
      | inl h' => exact absurd h'.symm hk
      | inr h' =>
        simp only [assocGet, hk, if_false]
        exact ih h'

/-- The member loop in closed form: over fresh identifiers it appends
`keygenEntries` to the accumulated map. -/
theorem keygenLoop_eq_entries (threshold : Nat) (crs : CRS)
    (commSks : List MemberCommunicationKey)
    (commPks : List MemberCommunicationPublicKey)
    (cs : List (WalletAlias × Identifier)) (index : Nat) (r : Rng)
    (data : List (Identifier × PrivateVoteCommitteeData))
    (hdisj : ∀ a ∈ cs, a.2 ∉ data.map Prod.fst)
    (hnodup : (cs.map Prod.snd).Nodup) :
    keygenLoop threshold crs commSks commPks index r cs data
      = data ++ keygenEntries threshold crs commSks commPks index r cs := by
  induction cs generalizing index r data with
  | nil => simp [keygenLoop, keygenEntries]
  | cons head rest ih =>
    obtain ⟨al, pk⟩ := head
    rcases hms : MemberState.new r threshold crs commPks index with ⟨ms, r'⟩
    have hpk : pk ∉ data.map Prod.fst := hdisj (al, pk) (List.mem_cons_self _ _)
    rw [List.map_cons] at hnodup
    obtain ⟨hpk_rest, hnodup'⟩ := List.nodup_cons.mp hnodup
    have hdisj' : ∀ (v : PrivateVoteCommitteeData), ∀ a ∈ rest,
        a.2 ∉ (data ++ [(pk, v)]).map Prod.fst := by
      intro v a ha
      simp only [List.map_append, List.mem_append]
      rintro (hin | hin)
      · exact hdisj a (List.mem_cons_of_mem _ ha) hin
      · simp at hin
        exact hpk_rest (List.mem_map.mpr ⟨a, ha, hin⟩)
    simp only [keygenLoop, keygenEntries, hms]
    rw [hashMapInsert_append data pk _ hpk, ih _ _ _ (hdisj' _) hnodup']
    simp

/-- `keygenEntries` produces one entry per roster member. -/
theorem keygenEntries_length (threshold : Nat) (crs : CRS)
    (commSks : List MemberCommunicationKey)
    (commPks : List MemberCommunicationPublicKey)
    (cs : List (WalletAlias × Identifier)) (index : Nat) (r : Rng) :
    (keygenEntries threshold crs commSks commPks index r cs).length
      = cs.length := by
  induction cs generalizing index r with
  | nil => rfl
  | cons head rest ih =>
    obtain ⟨al, pk⟩ := head
    rcases hms : MemberState.new r threshold crs commPks index with ⟨ms, r'⟩
    simp only [keygenEntries, hms, List.length_cons, ih]

/-- `keygenEntries` keys its entries by the roster identifiers, in roster
order. -/
theorem keygenEntries_keys (threshold : Nat) (crs : CRS)
    (commSks : List MemberCommunicationKey)
    (commPks : List MemberCommunicationPublicKey)
    (cs : List (WalletAlias × Identifier)) (index : Nat) (r : Rng) :
    (keygenEntries threshold crs commSks commPks index r cs).map Prod.fst
      = cs.map Prod.snd := by
  induction cs generalizing index r with
  | nil => rfl
  | cons head rest ih =>
    obtain ⟨al, pk⟩ := head
    rcases hms : MemberState.new r threshold crs commPks index with ⟨ms, r'⟩
    simp only [keygenEntries, hms, List.map_cons, ih]

/-- The member-index component of the secret shares produced by
`keygenEntries`: consecutive indices starting at the loop's start index; in
particular the probe is injective along the roster. -/
theorem keygenEntries_secret_probe (threshold : Nat) (crs : CRS)
    (commSks : List MemberCommunicationKey)
    (commPks : List MemberCommunicationPublicKey)
    (cs : List (WalletAlias × Identifier)) (index : Nat) (r : Rng) :
    (keygenEntries threshold crs commSks commPks index r cs).map
        (fun e => secretProbe e.2)
      = (List.range' index cs.length).map some := by
  induction cs generalizing index r with
  | nil => rfl
  | cons head rest ih =>
    obtain ⟨al, pk⟩ := head
    simp only [keygenEntries, MemberState.new, Rng.next, List.map_cons,
      List.length_cons, List.range'_succ]
    exact congrArg (fun l => some index :: l) (ih (index + 1) _)

/-- `PrivateVoteCommitteeDataManager::new` unfolded: the CRS draw, the
communication-key draws, and the member loop over the empty map. -/
theorem new_data_def (r : Rng) (cs : List (WalletAlias × Identifier))
    (threshold : Nat) :
    (PrivateVoteCommitteeDataManager.new r cs threshold).data
      = keygenLoop threshold (CRS.random r).1
          (drawCommunicationKeys cs.length (CRS.random r).2).1
          ((drawCommunicationKeys cs.length (CRS.random r).2).1.map
            MemberCommunicationKey.to_public)
          0 (drawCommunicationKeys cs.length (CRS.random r).2).2 cs [] := rfl

/-- Every entry the member loop ever inserts carries an election public key
built from the single-element participant set of its own member public
key. -/
theorem keygenLoop_epk_singleton (threshold : Nat) (crs : CRS)
    (commSks : List MemberCommunicationKey)
    (commPks : List MemberCommunicationPublicKey)
    (cs : List (WalletAlias × Identifier)) (index : Nat) (r : Rng)
    (data : List (Identifier × PrivateVoteCommitteeData))
    (hdata : ∀ e ∈ data, e.2.election_public_key
      = ElectionPublicKey.from_participants [e.2.member_public_key]) :
    ∀ e ∈ keygenLoop threshold crs commSks commPks index r cs data,
      e.2.election_public_key
        = ElectionPublicKey.from_participants [e.2.member_public_key] := by
  induction cs generalizing index r data with
  | nil =>
    intro e he
    exact hdata e he
  | cons head rest ih =>
    obtain ⟨al, pk⟩ := head
    rcases hms : MemberState.new r threshold crs commPks index with ⟨ms, r'⟩
    intro e he
    simp only [keygenLoop, hms] at he
    refine ih _ _ _ ?_ e he
    intro e' he'
    cases hashMapInsert_mem _ _ _ _ he' with
    | inl h => exact hdata e' h
    | inr h => rw [h]

/-- C2: for every roster, every valid threshold and every RNG, the key
material stored for a committee identity carries an encrypting (election)
public key equal to the one constructed from the single-element participant
set containing only that member's own member public key — not an aggregate
of the whole roster — and `from_participants` is a deterministic function,
so the encrypting key is a function of that one public key. -/
theorem encrypting_key_single_participant (r : Rng)
    (cs : List (WalletAlias × Identifier)) (threshold : Nat) (i : Identifier)
    (d : PrivateVoteCommitteeData)
    (ht1 : 1 ≤ threshold) (ht2 : threshold ≤ cs.length)
    (hget : (PrivateVoteCommitteeDataManager.new r cs threshold).get i = some d) :
    d.election_public_key
      = ElectionPublicKey.from_participants [d.member_public_key] := by
  have hmem : (i, d) ∈ (PrivateVoteCommitteeDataManager.new r cs threshold).data :=
    assocGet_mem _ _ _ hget
  rw [new_data_def] at hmem
  exact keygenLoop_epk_singleton _ _ _ _ _ _ _ _ (by intro e he; cases he) (i, d) hmem

/-- Witness for C2: a one-member roster at threshold 1 with the concrete
RNG; the stored data's encrypting key equals the singleton-participant
construction over its own member public key. -/
theorem encrypting_key_single_participant_witness :
    (PrivateVoteCommitteeDataManager.new testRng [("alice", 5)] 1).get 5
      = some
        { «alias» := "alice",
          communication_key := { bytes := [1] },
          member_secret_key := { bytes := [0, 2, 0, 1, 0, 2] },
          member_public_key := { bytes := [1, 2, 0, 1, 0, 2] },
          election_public_key := { bytes := [1, 2, 0, 1, 0, 2] } }
    ∧ ({ «alias» := "alice",
         communication_key := { bytes := [1] },
         member_secret_key := { bytes := [0, 2, 0, 1, 0, 2] },
         member_public_key := { bytes := [1, 2, 0, 1, 0, 2] },
         election_public_key := { bytes := [1, 2, 0, 1, 0, 2] } }
          : PrivateVoteCommitteeData).election_public_key
      = ElectionPublicKey.from_participants
          [({ «alias» := "alice",
              communication_key := { bytes := [1] },
              member_secret_key := { bytes := [0, 2, 0, 1, 0, 2] },
              member_public_key := { bytes := [1, 2, 0, 1, 0, 2] },
              election_public_key := { bytes := [1, 2, 0, 1, 0, 2] } }
              : PrivateVoteCommitteeData).member_public_key] :=
  ⟨rfl,
   encrypting_key_single_participant testRng [("alice", 5)] 1 5 _
     (by decide) (by decide) rfl⟩

/-- C3 counterexample: key generation with threshold 0 over a one-member
roster does NOT fail and does NOT come back empty — it returns a normal
result holding one entry. (`PrivateVoteCommitteeDataManager::new` returns
`Self`, not `Result`: no `InvalidThreshold` — or any — failure channel
exists, and the function performs no threshold validation.) -/
theorem keygen_threshold_zero_returns_entry :
    (PrivateVoteCommitteeDataManager.new testRng [("alice", 5)] 0).data.length
      = 1 := rfl

/-- C3 as amended: key generation performs no threshold validation — for an
out-of-range threshold (0, or greater than the roster size) it still returns
one entry per (unique) roster identity; rejection of the bad threshold, if
any, happens only inside the external cryptographic primitive. -/
theorem keygen_ignores_out_of_range_threshold (r : Rng)
    (cs : List (WalletAlias × Identifier)) (threshold : Nat)
    (hnodup : (cs.map Prod.snd).Nodup)
    (ht : threshold = 0 ∨ cs.length < threshold) :
    (PrivateVoteCommitteeDataManager.new r cs threshold).data.length
      = cs.length := by
  rw [new_data_def,
    keygenLoop_eq_entries _ _ _ _ _ _ _ _ (by intro a ha h; cases h) hnodup]
  simp [keygenEntries_length]

/-- Witness for the amended C3 at threshold 0 over a one-member roster. -/
theorem keygen_ignores_out_of_range_threshold_witness :
    ([("alice", (5 : Identifier))].map Prod.snd).Nodup
    ∧ (PrivateVoteCommitteeDataManager.new testRng [("alice", 5)] 0).data.length
      = 1 :=
  ⟨by decide,
   keygen_ignores_out_of_range_threshold testRng [("alice", 5)] 0
     (by decide) (Or.inl rfl)⟩

/-- C4: over a roster with unique identities and a threshold `t` with
`1 <= t <= n`, key generation returns a mapping with exactly `n` entries,
lookup succeeds on every roster identity, and the member secret shares of
the entries are pairwise distinct. -/
theorem keygen_one_entry_per_identity (r : Rng)
    (cs : List (WalletAlias × Identifier)) (threshold : Nat)
    (hnodup : (cs.map Prod.snd).Nodup)
    (ht1 : 1 ≤ threshold) (ht2 : threshold ≤ cs.length) :
    (PrivateVoteCommitteeDataManager.new r cs threshold).data.length = cs.length
    ∧ (∀ a ∈ cs,
        ((PrivateVoteCommitteeDataManager.new r cs threshold).get a.2).isSome
          = true)
    ∧ (PrivateVoteCommitteeDataManager.new r cs threshold).data.Pairwise
        (fun e₁ e₂ => e₁.2.member_secret_key ≠ e₂.2.member_secret_key) := by
  have hdata : (PrivateVoteCommitteeDataManager.new r cs threshold).data
      = keygenEntries threshold (CRS.random r).1
          (drawCommunicationKeys cs.length (CRS.random r).2).1
          ((drawCommunicationKeys cs.length (CRS.random r).2).1.map
            MemberCommunicationKey.to_public)
          0 (drawCommunicationKeys cs.length (CRS.random r).2).2 cs := by
    rw [new_data_def,
      keygenLoop_eq_entries _ _ _ _ _ _ _ _ (by intro a ha h; cases h) hnodup]
    simp
  refine ⟨?_, ?_, ?_⟩
  · rw [hdata, keygenEntries_length]
  · intro a ha
    show (assocGet (PrivateVoteCommitteeDataManager.new r cs threshold).data
      a.2).isSome = true
    rw [hdata]
    refine assocGet_isSome_of_mem_keys _ _ ?_
    rw [keygenEntries_keys]
    exact List.mem_map_of_mem Prod.snd ha
  · rw [hdata]
    have hprobe := keygenEntries_secret_probe threshold (CRS.random r).1
      (drawCommunicationKeys cs.length (CRS.random r).2).1
      ((drawCommunicationKeys cs.length (CRS.random r).2).1.map
        MemberCommunicationKey.to_public)
      cs 0 (drawCommunicationKeys cs.length (CRS.random r).2).2
    have hnd : ((keygenEntries threshold (CRS.random r).1
        (drawCommunicationKeys cs.length (CRS.random r).2).1
        ((drawCommunicationKeys cs.length (CRS.random r).2).1.map
          MemberCommunicationKey.to_public)
        0 (drawCommunicationKeys cs.length (CRS.random r).2).2 cs).map
        (fun e => secretProbe e.2)).Nodup := by
      rw [hprobe]
      exact (List.nodup_range' 0 cs.length).map (Option.some_injective Nat)
    have hpw := List.pairwise_map.mp hnd
    refine hpw.imp ?_
    intro e₁ e₂ hne heq
    exact hne (by rw [secretProbe, secretProbe, heq])

/-- Witness for C4: a two-member roster at threshold 2 with the concrete
RNG. -/
theorem keygen_one_entry_per_identity_witness :
    (PrivateVoteCommitteeDataManager.new testRng
        [("alice", 5), ("bob", 9)] 2).data.length = 2
    ∧ (∀ a ∈ [(("alice" : WalletAlias), (5 : Identifier)), ("bob", 9)],
        ((PrivateVoteCommitteeDataManager.new testRng
            [("alice", 5), ("bob", 9)] 2).get a.2).isSome = true)
    ∧ (PrivateVoteCommitteeDataManager.new testRng
        [("alice", 5), ("bob", 9)] 2).data.Pairwise
        (fun e₁ e₂ => e₁.2.member_secret_key ≠ e₂.2.member_secret_key) :=
  keygen_one_entry_per_identity testRng [("alice", 5), ("bob", 9)] 2
    (by decide) (by decide) (by decide)

/-- C10: the Debug rendering of a committee member's key material is a
function of the two public components alone — the communication public key
bytes and the member public key bytes. Any two data values agreeing on those
render identically, whatever their alias, member secret share, communication
secret key (beyond its public half) and election key; and the rendering is
exactly the fixed text items plus the two public byte dumps, so no other
field ever appears in the output. -/
theorem debug_renders_only_public_components
    (d d' : PrivateVoteCommitteeData)
    (hc : d.communication_key.to_public = d'.communication_key.to_public)
    (hm : d.member_public_key = d'.member_public_key) :
    d.debugFmt = d'.debugFmt
    ∧ d.debugFmt =
      [.text "PrivateVoteCommitteeData",
       .text "communication key: ",
       .dump d.communication_key.to_public.bytes,
       .text "member public key: ",
       .dump d.member_public_key.bytes,
       .text ")"] := by
  constructor
  · simp only [PrivateVoteCommitteeData.debugFmt, hc, hm]
  · rfl

/-- Witness for C10: two concrete data values sharing the public components
but differing in alias, member secret share and election key render
identically. -/
theorem debug_renders_only_public_components_witness :
    ({ «alias» := "alice",
       communication_key := { bytes := [3] },
       member_secret_key := { bytes := [101] },
       member_public_key := { bytes := [4] },
       election_public_key := { bytes := [5] } }
        : PrivateVoteCommitteeData).debugFmt
      = ({ «alias» := "bob",
           communication_key := { bytes := [3] },
           member_secret_key := { bytes := [202] },
           member_public_key := { bytes := [4] },
           election_public_key := { bytes := [6] } }
            : PrivateVoteCommitteeData).debugFmt
    ∧ ({ «alias» := "alice",
         communication_key := { bytes := [3] },
         member_secret_key := { bytes := [101] },
         member_public_key := { bytes := [4] },
         election_public_key := { bytes := [5] } }
          : PrivateVoteCommitteeData).debugFmt
      = [.text "PrivateVoteCommitteeData",
         .text "communication key: ",
         .dump ({ bytes := [3] } : MemberCommunicationKey).to_public.bytes,
         .text "member public key: ",
         .dump [4],
         .text ")"] :=
  debug_renders_only_public_components _ _ rfl rfl
